import Mathlib

set_option autoImplicit false

namespace PdfOcr

/-!
Shallow embedding of the page-pipeline and content-cache core of the
tauri-pdf-ocr repository.

The cache service (`CacheService` in the source) persists one entry per
(file md5, page number) in a key/value store, keyed `cache_<md5>_<page>`,
and enforces a byte budget by evicting oldest-timestamp entries first.
The store is modelled as an association list in key insertion order,
matching the enumeration order of the underlying JS store (`store.keys()`);
`store.set` on an existing key keeps its position, a new key is appended.
String lengths are modelled as character counts.
-/

/-- A cache entry as stored: optional OCR text, optional translated text and
a single shared timestamp (source `interface CacheEntry`). -/
structure CacheEntry where
  ocrText : Option String
  translatedText : Option String
  timestamp : Nat
deriving DecidableEq, Repr

/-- The persisted store contents, in key insertion order. -/
abbrev CacheStore := List (String × CacheEntry)

/-- Decimal digit character for `d < 10`. -/
def digitChar (d : Nat) : Char := Char.ofNat (48 + d)

/-- Decimal digits, structurally recursive on a fuel bound so that concrete
keys evaluate inside the kernel; `decChars` supplies adequate fuel. -/
def decCharsCore : Nat → Nat → List Char
  | 0, _ => []
  | fuel + 1, n =>
    if n < 10 then [digitChar n]
    else decCharsCore fuel (n / 10) ++ [digitChar (n % 10)]

/-- Decimal representation of a natural number, embedding the JS
number-to-string conversion used by the template literal in `generateKey`. -/
def decChars (n : Nat) : List Char := decCharsCore (n + 1) n

/-- Decimal representation as a string. -/
def natToDec (n : Nat) : String := ⟨decChars n⟩

/-- Source `CacheService.generateKey`: the single key shared by both artifact
kinds of a page. -/
def generateKey (fileMd5 : String) (pageNumber : Nat) : String :=
  "cache_" ++ fileMd5 ++ "_" ++ natToDec pageNumber

/-- `store.get(key)` on the association list. -/
def lookupKey : CacheStore → String → Option CacheEntry
  | [], _ => none
  | (k, e) :: rest, key => if k = key then some e else lookupKey rest key

/-- `store.set(key, v)`: replace in place if present, else append. -/
def setKey : CacheStore → String → CacheEntry → CacheStore
  | [], key, v => [(key, v)]
  | (k, e) :: rest, key, v =>
    if k = key then (key, v) :: rest else (k, e) :: setKey rest key v

/-- `store.delete(key)`. -/
def eraseKey : CacheStore → String → CacheStore
  | [], _ => []
  | (k, e) :: rest, key => if k = key then rest else (k, e) :: eraseKey rest key

/-- `entry.ocrText ? entry.ocrText.length : 0` (an absent field counts 0). -/
def optLen : Option String → Nat
  | some t => t.length
  | none => 0

/-- Serialized size charged to one entry in `getCurrentCacheSize` and
`enforceSizeLimit`: key length + value lengths + fixed 8 for the timestamp. -/
def entrySize (key : String) (e : CacheEntry) : Nat :=
  key.length + optLen e.ocrText + optLen e.translatedText + 8

/-- Boolean string-prefix test on character lists (the embedding of JS
`String.prototype.startsWith`). -/
def listStartsWith : List Char → List Char → Bool
  | [], _ => true
  | _ :: _, [] => false
  | p :: ps, c :: cs => if p = c then listStartsWith ps cs else false

/-- `key.startsWith('cache_')`. -/
def isCacheKey (k : String) : Bool := listStartsWith "cache_".data k.data

/-- Source `CacheService.getCurrentCacheSize`: aggregate serialized size over
all `cache_`-keyed entries. -/
def getCurrentCacheSize (s : CacheStore) : Nat :=
  (s.map fun p => if isCacheKey p.1 then entrySize p.1 p.2 else 0).sum

/-- Stable insert for sorting by a numeric measure. -/
def insertByTs {α : Type} (ts : α → Nat) (x : α) : List α → List α
  | [] => [x]
  | y :: ys => if ts x ≤ ts y then x :: y :: ys else y :: insertByTs ts x ys

/-- Stable sort by a numeric measure.  `entries.sort((a, b) => a.timestamp -
b.timestamp)` is a stable sort under a total comparator, so its output is
exactly the stable-sorted list, which insertion sort computes. -/
def sortByTs {α : Type} (ts : α → Nat) : List α → List α
  | [] => []
  | x :: xs => insertByTs ts x (sortByTs ts xs)

/-- The `entries` array built inside `enforceSizeLimit`: `{ key, timestamp }`
for every `cache_`-keyed entry, in store enumeration order. -/
def cacheEntriesList (s : CacheStore) : List (String × Nat) :=
  (s.filter fun p => isCacheKey p.1).map fun p => (p.1, p.2.timestamp)

/-- The deletion loop of `enforceSizeLimit`: walk the sorted entries; stop as
soon as the running total is within budget, otherwise re-fetch the item,
delete it and subtract its size from the running total. -/
def evictFrom (budget : Nat) : List (String × Nat) → Nat → CacheStore → CacheStore
  | [], _, store => store
  | (key, _) :: rest, currentSize, store =>
    if currentSize ≤ budget then store
    else
      match lookupKey store key with
      | some item =>
        evictFrom budget rest (currentSize - entrySize key item) (eraseKey store key)
      | none => evictFrom budget rest currentSize store

/-- Source `CacheService.enforceSizeLimit`. -/
def enforceSizeLimit (budget : Nat) (store : CacheStore) : CacheStore :=
  let currentSize := getCurrentCacheSize store
  if currentSize > budget then
    evictFrom budget (sortByTs (fun p => p.2) (cacheEntriesList store)) currentSize store
  else store

/-- Source `CacheService.saveOcrText` (store available): spread the existing
entry (or a fresh one), overwrite `ocrText` and the shared timestamp with
the current time, write back, then enforce the size limit. -/
def saveOcrText (budget : Nat) (fileMd5 : String) (pageNumber : Nat)
    (text : String) (now : Nat) (store : CacheStore) : CacheStore :=
  let key := generateKey fileMd5 pageNumber
  let newEntry : CacheEntry :=
    match lookupKey store key with
    | some existing => { existing with ocrText := some text, timestamp := now }
    | none => { ocrText := some text, translatedText := none, timestamp := now }
  enforceSizeLimit budget (setKey store key newEntry)

/-- Source `CacheService.saveTranslatedText` (store available). -/
def saveTranslatedText (budget : Nat) (fileMd5 : String) (pageNumber : Nat)
    (text : String) (now : Nat) (store : CacheStore) : CacheStore :=
  let key := generateKey fileMd5 pageNumber
  let newEntry : CacheEntry :=
    match lookupKey store key with
    | some existing => { existing with translatedText := some text, timestamp := now }
    | none => { ocrText := none, translatedText := some text, timestamp := now }
  enforceSizeLimit budget (setKey store key newEntry)

/-- JS `x || null` on an optional string: an empty string is falsy and
collapses to `null`. -/
def jsTruthyText : Option String → Option String
  | some t => if t = "" then none else some t
  | none => none

/-- Source `CacheService.getOcrText`: `entry?.ocrText || null`. -/
def getOcrText (store : CacheStore) (fileMd5 : String) (pageNumber : Nat) : Option String :=
  match lookupKey store (generateKey fileMd5 pageNumber) with
  | some entry => jsTruthyText entry.ocrText
  | none => none

/-- Source `CacheService.getTranslatedText`: `entry?.translatedText || null`. -/
def getTranslatedText (store : CacheStore) (fileMd5 : String) (pageNumber : Nat) : Option String :=
  match lookupKey store (generateKey fileMd5 pageNumber) with
  | some entry => jsTruthyText entry.translatedText
  | none => none

/-- Source `CacheService.clearFileCache`: delete every key starting with
`cache_<md5>_`. -/
def clearFileCache (fileMd5 : String) (store : CacheStore) : CacheStore :=
  store.filter fun p => !(listStartsWith ("cache_" ++ fileMd5 ++ "_").data p.1.data)

/-- Source `CacheService.clearAllCache`: delete every `cache_` key. -/
def clearAllCache (store : CacheStore) : CacheStore :=
  store.filter fun p => !(isCacheKey p.1)

/-- The cache mutations named by the specification. -/
inductive CacheOp where
  | saveOcr (fileMd5 : String) (page : Nat) (text : String) (now : Nat)
  | saveTranslated (fileMd5 : String) (page : Nat) (text : String) (now : Nat)
  | clearFile (fileMd5 : String)
  | clearAll
deriving DecidableEq, Repr

/-- One mutating operation against the store. -/
def applyOp (budget : Nat) (op : CacheOp) (s : CacheStore) : CacheStore :=
  match op with
  | .saveOcr m p t now => saveOcrText budget m p t now s
  | .saveTranslated m p t now => saveTranslatedText budget m p t now s
  | .clearFile m => clearFileCache m s
  | .clearAll => clearAllCache s

/-- A sequence of mutating operations, oldest first. -/
def applyOps (budget : Nat) (ops : List CacheOp) (s : CacheStore) : CacheStore :=
  ops.foldl (fun acc op => applyOp budget op acc) s

/-- Iterated deletion, in order. -/
def eraseKeys (s : CacheStore) : List String → CacheStore
  | [] => s
  | k :: ks => eraseKeys (eraseKey s k) ks

/-! ### Spec-side eviction with key tie-break (for comparison only)

Modelled from the spec: "Ties in `writtenAt` are broken by key's natural
ordering to keep eviction deterministic for testing."  These definitions
follow the spec's words, not the source; the source sorts by
`a.timestamp - b.timestamp` alone. -/

/-- Lexicographic order on character lists, by code point. -/
def charListLe : List Char → List Char → Bool
  | [], _ => true
  | _ :: _, [] => false
  | a :: as, b :: bs =>
    if a.toNat < b.toNat then true
    else if b.toNat < a.toNat then false
    else charListLe as bs

/-- Ascending by timestamp, ties broken by the key's natural (lexicographic)
order, as the spec claims. -/
def tsKeyLe (a b : String × Nat) : Bool :=
  if a.2 = b.2 then charListLe a.1.data b.1.data else decide (a.2 ≤ b.2)

def insertTsKey (x : String × Nat) : List (String × Nat) → List (String × Nat)
  | [] => [x]
  | y :: ys => if tsKeyLe x y then x :: y :: ys else y :: insertTsKey x ys

def sortTsKey : List (String × Nat) → List (String × Nat)
  | [] => []
  | x :: xs => insertTsKey x (sortTsKey xs)

/-- Modelled from the spec: `enforceSizeLimit` as the spec describes it, with
the claimed key tie-break in the eviction order. -/
def enforceSizeLimitSpecTie (budget : Nat) (store : CacheStore) : CacheStore :=
  let currentSize := getCurrentCacheSize store
  if currentSize > budget then
    evictFrom budget (sortTsKey (cacheEntriesList store)) currentSize store
  else store

/-! ### The service-level save calls

`saveOcrText` / `saveTranslatedText` in the source first await `initialize`;
when the persistence layer failed to open, `this.store` is `null` and the
call RETURNS (no write, no exception).  When the store is available, the
entry is written and `store.save()` is awaited before the call returns, and
the surrounding try/catch logs and swallows any error.  The store option
below models availability; the outcome records how the call returned. -/

/-- How a save call finished. -/
inductive SaveResult where
  | returnedNormally
  | threw (msg : String)
deriving DecidableEq, Repr

/-- Source `CacheService.saveOcrText`, including the `if (!this.store) return`
guard and the error-swallowing catch: it never throws. -/
def saveOcrTextSvc (budget : Nat) (m : String) (pg : Nat) (v : String) (now : Nat) :
    Option CacheStore → Option CacheStore × SaveResult
  | none => (none, .returnedNormally)
  | some s => (some (saveOcrText budget m pg v now s), .returnedNormally)

/-- Source `CacheService.saveTranslatedText`, with the same guard and catch. -/
def saveTranslatedTextSvc (budget : Nat) (m : String) (pg : Nat) (v : String) (now : Nat) :
    Option CacheStore → Option CacheStore × SaveResult
  | none => (none, .returnedNormally)
  | some s => (some (saveTranslatedText budget m pg v now s), .returnedNormally)

/-! ### The pipeline component state (`TextExtraction`)

The pieces of `TextExtraction`'s React state that the cross-page claims are
about.  `translatingPage` is `-1` when no translation is streaming, hence
the `Int` type mirroring the source's sentinel. -/

structure UiState where
  pageNumber : Nat
  extractedText : String
  translatingPage : Int
  translatingResult : String
  errorMsg : Option String
  store : CacheStore
deriving DecidableEq, Repr

/-- The gating effect of `TextExtraction` (source lines 238-242): copy the
streamed translation buffer into the visible text only when the page being
translated equals the page currently on screen. -/
def applyTranslatingGate (s : UiState) : UiState :=
  if (s.pageNumber : Int) = s.translatingPage then
    { s with extractedText := s.translatingResult }
  else s

/-- The `onChunk` callback passed by `translateText` for a translation
issued for page `pg` (source lines 108-112): record the page being
translated, append the chunk to the call's own accumulated buffer and
publish the buffer; the visible `extractedText` is not touched here. -/
def translateOnChunk (pg : Nat) (chunk : String) (buffer : String) (s : UiState) :
    String × UiState :=
  let buffer2 := buffer ++ chunk
  (buffer2, { s with translatingPage := (pg : Int), translatingResult := buffer2 })

/-- The continuation of `extractText` once the OCR promise issued for page
`pg` resolves with `text` (source lines 64-74).  An `OcrService` call that
was aborted by a newer call resolves with the empty string and is dropped
by the `text !== ''` guard; any other resolution saves under `pg`'s own
cache key and overwrites the visible text — with NO check that `pg` is
still the page on screen. -/
def ocrResolve (budget : Nat) (m : String) (pg : Nat) (text : String) (now : Nat)
    (s : UiState) : UiState :=
  if text ≠ "" then
    { s with
      store := saveOcrText budget m pg text now s.store,
      extractedText := text }
  else s

/-- The completion step of `translateText` for page `pg` (source lines
115-122): a non-empty final text is saved under `pg`'s own cache key; the
visible text is not set here (the commented-out `setExtractedText`). -/
def translateResolve (budget : Nat) (m : String) (pg : Nat) (translated : String)
    (now : Nat) (s : UiState) : UiState :=
  if translated ≠ "" then
    { s with store := saveTranslatedText budget m pg translated now s.store }
  else s

/-! ### Catch handlers and thrown values (`translateText` / `translateStream`) -/

/-- A JS value as it reaches a catch handler: a thrown string or an Error
object carrying a message. -/
inductive JsValue where
  | jsStr (s : String)
  | jsError (message : String)
deriving DecidableEq, Repr

/-- `err.message || '<default>'`: `.message` of a string is `undefined`, and
an empty message is falsy; both fall back to the default. -/
def errMessageOrDefault (deflt : String) : JsValue → String
  | .jsStr _ => deflt
  | .jsError m => if m = "" then deflt else m

/-- The catch handler of `TextExtraction.translateText` (source lines
124-128): `if (err !== 'Request cancelled') { setError(err.message ||
'翻译失败') }` — a strict comparison of the caught value against the string
'Request cancelled'. -/
def translateCatch (err : JsValue) (s : UiState) : UiState :=
  if err ≠ JsValue.jsStr "Request cancelled" then
    { s with errorMsg := some (errMessageOrDefault "翻译失败" err) }
  else s

/-- What `TranslationService.translateStream` throws when its request was
aborted: `throw new Error('Request canceled')` (source lines 191 and 230). -/
def translateStreamCancelError : JsValue := JsValue.jsError "Request canceled"

/-! ### The translation stream (`TranslationService.translateStream`) -/

/-- One server-sent event line, after the `data:` framing and JSON parsing
of the read loop: a content delta, the literal `[DONE]`, or a line the loop
ignores (non-`data:` lines and JSON parse failures). -/
inductive StreamEvent where
  | content (s : String)
  | done
  | junk
deriving DecidableEq, Repr

/-- The read loop of `translateStream` as written (source lines 182-223):
append each non-empty content delta to `fullResponse` and deliver it RAW to
`onChunk`; stop at `[DONE]`.  Returns (fullResponse, chunks in delivery
order).  In the source this loop is dead code — see
`translateStreamActual`. -/
def processStream : List StreamEvent → String × List String
  | [] => ("", [])
  | .done :: _ => ("", [])
  | .junk :: rest => processStream rest
  | .content c :: rest =>
    if c = "" then processStream rest
    else
      let r := processStream rest
      (c ++ r.1, c :: r.2)

/-- ASCII lower-casing, for the case-insensitive `/i` regex flag. -/
def lowerChar (c : Char) : Char :=
  if 65 ≤ c.toNat ∧ c.toNat ≤ 90 then Char.ofNat (c.toNat + 32) else c

/-- Try to match `pat` (given lowercase) case-insensitively at the head;
return the remainder on success. -/
def matchCI : List Char → List Char → Option (List Char)
  | [], rest => some rest
  | _ :: _, [] => none
  | p :: ps, c :: cs => if lowerChar c = p then matchCI ps cs else none

/-- Scan for the nearest case-insensitive `</think>` (the non-greedy `*?`),
returning what follows it. -/
def findCloseTag : Nat → List Char → Option (List Char)
  | 0, _ => none
  | _, [] => none
  | fuel + 1, c :: cs =>
    match matchCI "</think>".data (c :: cs) with
    | some rest => some rest
    | none => findCloseTag fuel cs

/-- First replace of `stripThinkTags`: remove every
`<think> ... </think>` block (multiline, case-insensitive, non-greedy);
an unclosed `<think>` matches nothing and stays. -/
def stripBlocksCore : Nat → List Char → List Char
  | 0, l => l
  | _, [] => []
  | fuel + 1, c :: cs =>
    match matchCI "<think>".data (c :: cs) with
    | some rest =>
      match findCloseTag (rest.length + 1) rest with
      | some rest2 => stripBlocksCore fuel rest2
      | none => c :: stripBlocksCore fuel cs
    | none => c :: stripBlocksCore fuel cs

/-- Second replace of `stripThinkTags`: drop stray `<think>` / `</think>`
tags, case-insensitively. -/
def stripStrayCore : Nat → List Char → List Char
  | 0, l => l
  | _, [] => []
  | fuel + 1, c :: cs =>
    match matchCI "<think>".data (c :: cs) with
    | some rest => stripStrayCore fuel rest
    | none =>
      match matchCI "</think>".data (c :: cs) with
      | some rest => stripStrayCore fuel rest
      | none => c :: stripStrayCore fuel cs

/-- Whitespace for `String.prototype.trim` (the cases that matter here). -/
def isJsWhitespace (c : Char) : Bool :=
  c = ' ' || c = '\t' || c = '\n' || c = '\r'

/-- `trim()`. -/
def trimChars (l : List Char) : List Char :=
  ((l.dropWhile isJsWhitespace).reverse.dropWhile isJsWhitespace).reverse

/-- Source `TranslationService.stripThinkTags` (lines 105-110): the
`if (!text) return text` guard, block removal, stray-tag removal, trim. -/
def stripThinkTags (text : String) : String :=
  if text = "" then text
  else
    let afterBlocks := stripBlocksCore text.data.length text.data
    let afterStray := stripStrayCore afterBlocks.length afterBlocks
    ⟨trimChars afterStray⟩

/-- What the dead read loop WOULD return on success (source lines 182-226):
the stripped full response, `'无法翻译'` when the stripped text is empty,
with the raw chunks as delivered to `onChunk`. -/
def translateStreamIntended (events : List StreamEvent) : String × List String :=
  let r := processStream events
  let cleaned := stripThinkTags r.1
  ((if cleaned = "" then "无法翻译" else cleaned), r.2)

/-- `TranslationService.translateStream` as the source actually executes
(lines 121-159): after the fetch resolves it unconditionally aborts its own
request (`abortController.abort("fuck"); debugger; return ''`) BEFORE the
read loop, so every successful call returns the empty string and delivers
no chunk, whatever the provider would have streamed. -/
def translateStreamActual (_events : List StreamEvent) : String × List String :=
  ("", [])

/-! ### Narration (`TtsService`) and the auto-read callback -/

/-- The static tracking state of `TtsService`. -/
structure TtsState where
  isSpeaking : Bool
  currentProcessId : Option String
deriving DecidableEq, Repr

/-- The `tts-finished` listener body (source ttsService lines 40-53): fire
the speaking-status callbacks and the auto-turn-page callback only when the
event's process id equals the tracked one, then clear the tracking state.
The returned flag is whether the callback chain was invoked. -/
def handleTtsFinished (s : TtsState) (pid : String) : TtsState × Bool :=
  if s.currentProcessId = some pid then
    ({ isSpeaking := false, currentProcessId := none }, true)
  else (s, false)

/-- `TtsService.stop` (lines 148-160): a no-op when nothing is speaking;
otherwise invoke `stop_speaking` and clear the state when the invoke
succeeds (a failing invoke is logged and leaves the state unchanged). -/
def ttsStop (s : TtsState) (invokeOk : Bool) : TtsState :=
  if s.isSpeaking = false then s
  else
    match s.currentProcessId with
    | some _ =>
      if invokeOk then { isSpeaking := false, currentProcessId := none } else s
    | none => s

/-- A successful `TtsService.speak`: the freshly returned process id is
tracked (lines 133-135). -/
def ttsSpeakStart (newPid : String) : TtsState :=
  { isSpeaking := true, currentProcessId := some newPid }

/-- Every pipeline mount re-runs `TtsService.initialize`, registering one
more duplicate `tts-finished` listener; all of them run the same handler on
the shared static state.  Returns the final state and how many times the
callback chain fired in total. -/
def dispatchTtsFinished : Nat → TtsState → String → TtsState × Nat
  | 0, s, _ => (s, 0)
  | n + 1, s, pid =>
    let r := handleTtsFinished s pid
    let r2 := dispatchTtsFinished n r.1 pid
    (r2.1, (if r.2 then 1 else 0) + r2.2)

/-! ### The auto-turn-page callback (`TextExtraction.handleSpeak`) -/

/-- The inputs the registered auto-turn-page callback closes over. -/
structure AutoReadState where
  isCurrentlyAutoSpeaking : Bool
  pageNumber : Nat
  numPages : Nat
  hasTurnPage : Bool
deriving DecidableEq, Repr

inductive TurnDirection where
  | next
  | prev
deriving DecidableEq, Repr

/-- The auto-turn-page callback registered by `handleSpeak` (source lines
274-283): on the finished notification, request the next page only when
auto-reading is active, `pageNumber` and `numPages` are truthy, an
`onTurnPage` callback exists, and the page is not the last one.  No state
is changed in any case: in particular the auto-speaking flag is NOT
cleared when the last page finishes. -/
def autoTurnPageCallbackRun (s : AutoReadState) :
    Option TurnDirection × AutoReadState :=
  if s.isCurrentlyAutoSpeaking && (s.pageNumber != 0) && (s.numPages != 0) && s.hasTurnPage then
    (if s.pageNumber < s.numPages then (some TurnDirection.next, s) else (none, s))
  else (none, s)

/-! ### Store well-formedness and association-list lemmas -/

/-- The key list of a store, in enumeration order. -/
def storeKeys (s : CacheStore) : List String := s.map Prod.fst

/-- Every key written by the service carries the `cache_` marker, and keys are
unique; both hold for every store the service can produce. -/
def WFStore (s : CacheStore) : Prop :=
  (∀ p ∈ s, isCacheKey p.1 = true) ∧ (storeKeys s).Nodup

theorem lookupKey_setKey_self (s : CacheStore) (k : String) (v : CacheEntry) :
    lookupKey (setKey s k v) k = some v := by
  induction s with
  | nil => simp [setKey, lookupKey]
  | cons p rest ih =>
    obtain ⟨k₀, e₀⟩ := p
    by_cases h : k₀ = k
    · simp [setKey, h, lookupKey]
    · simp [setKey, h, lookupKey, ih]

theorem lookupKey_setKey_ne (s : CacheStore) (k k' : String) (v : CacheEntry)
    (h : k' ≠ k) : lookupKey (setKey s k v) k' = lookupKey s k' := by
  have hne : k ≠ k' := fun hh => h hh.symm
  induction s with
  | nil => simp [setKey, lookupKey, hne]
  | cons p rest ih =>
    obtain ⟨k₀, e₀⟩ := p
    by_cases h₀ : k₀ = k
    · subst h₀
      simp [setKey, lookupKey, hne]
    · simp only [setKey, if_neg h₀, lookupKey]
      by_cases h₁ : k₀ = k'
      · simp [h₁]
      · simp [h₁, ih]

theorem mem_setKey (s : CacheStore) (k : String) (v : CacheEntry) :
    ∀ p ∈ setKey s k v, p ∈ s ∨ p = (k, v) := by
  induction s with
  | nil => simp [setKey]
  | cons q rest ih =>
    obtain ⟨k₀, e₀⟩ := q
    by_cases h : k₀ = k
    · intro p hp
      simp only [setKey, if_pos h] at hp
      rcases List.mem_cons.mp hp with hp' | hp'
      · right; exact hp'
      · left; exact List.mem_cons_of_mem _ hp'
    · intro p hp
      simp only [setKey, if_neg h] at hp
      rcases List.mem_cons.mp hp with hp' | hp'
      · left; exact hp' ▸ List.mem_cons_self _ _
      · rcases ih p hp' with h' | h'
        · left; exact List.mem_cons_of_mem _ h'
        · right; exact h'

theorem storeKeys_setKey_mem (s : CacheStore) (k : String) (v : CacheEntry) :
    ∀ x ∈ storeKeys (setKey s k v), x ∈ storeKeys s ∨ x = k := by
  intro x hx
  simp only [storeKeys, List.mem_map] at hx
  obtain ⟨p, hp, hpx⟩ := hx
  rcases mem_setKey s k v p hp with h | h
  · left; exact hpx ▸ List.mem_map_of_mem Prod.fst h
  · right; rw [← hpx, h]

theorem nodup_setKey (s : CacheStore) (k : String) (v : CacheEntry)
    (h : (storeKeys s).Nodup) : (storeKeys (setKey s k v)).Nodup := by
  induction s with
  | nil => simp [setKey, storeKeys]
  | cons p rest ih =>
    obtain ⟨k₀, e₀⟩ := p
    simp only [storeKeys, List.map_cons, List.nodup_cons] at h
    by_cases h₀ : k₀ = k
    · subst h₀
      simpa [setKey, storeKeys, List.nodup_cons] using h
    · simp only [setKey, if_neg h₀, storeKeys, List.map_cons, List.nodup_cons]
      refine ⟨fun hc => ?_, ih h.2⟩
      rcases storeKeys_setKey_mem rest k v k₀ hc with hc' | hc'
      · exact h.1 hc'
      · exact h₀ hc'

theorem eraseKey_sublist (s : CacheStore) (k : String) :
    List.Sublist (eraseKey s k) s := by
  induction s with
  | nil => simp [eraseKey]
  | cons p rest ih =>
    obtain ⟨k₀, e₀⟩ := p
    by_cases h : k₀ = k
    · rw [eraseKey, if_pos h]
      exact List.sublist_cons_self _ _
    · rw [eraseKey, if_neg h]
      exact List.Sublist.cons₂ _ ih

theorem lookupKey_none_iff (s : CacheStore) (k : String) :
    lookupKey s k = none ↔ k ∉ storeKeys s := by
  induction s with
  | nil => simp [lookupKey, storeKeys]
  | cons p rest ih =>
    obtain ⟨k₀, e₀⟩ := p
    by_cases h : k₀ = k
    · simp [lookupKey, h, storeKeys]
    · rw [lookupKey, if_neg h]
      simp only [storeKeys, List.map_cons, List.mem_cons] at ih ⊢
      constructor
      · intro hn
        intro hc
        rcases hc with hc | hc
        · exact h hc.symm
        · exact (ih.mp hn) hc
      · intro hn
        exact ih.mpr (fun hc => hn (Or.inr hc))

theorem eraseKey_of_lookup_none (s : CacheStore) (k : String)
    (h : lookupKey s k = none) : eraseKey s k = s := by
  induction s with
  | nil => simp [eraseKey]
  | cons p rest ih =>
    obtain ⟨k₀, e₀⟩ := p
    by_cases h₀ : k₀ = k
    · rw [lookupKey, if_pos h₀] at h
      exact absurd h (by simp)
    · rw [lookupKey, if_neg h₀] at h
      rw [eraseKey, if_neg h₀, ih h]

theorem lookupKey_eraseKey_some (s : CacheStore) (k k' : String) (e : CacheEntry)
    (hnd : (storeKeys s).Nodup)
    (h : lookupKey (eraseKey s k) k' = some e) : lookupKey s k' = some e := by
  induction s with
  | nil => simp [eraseKey, lookupKey] at h
  | cons p rest ih =>
    obtain ⟨k₀, e₀⟩ := p
    simp only [storeKeys, List.map_cons, List.nodup_cons] at hnd
    by_cases h₀ : k₀ = k
    · rw [eraseKey, if_pos h₀] at h
      by_cases h₁ : k₀ = k'
      · subst h₁
        subst h₀
        have hnone : lookupKey rest k₀ = none := by
          rw [lookupKey_none_iff]
          exact hnd.1
        rw [hnone] at h
        exact absurd h (by simp)
      · rw [lookupKey, if_neg h₁]
        subst h₀
        exact h
    · rw [eraseKey, if_neg h₀] at h
      by_cases h₁ : k₀ = k'
      · rw [lookupKey, if_pos h₁] at h ⊢
        exact h
      · rw [lookupKey, if_neg h₁] at h ⊢
        exact ih hnd.2 h

theorem getCurrentCacheSize_eraseKey (s : CacheStore) (k : String) (e : CacheEntry)
    (hc : ∀ p ∈ s, isCacheKey p.1 = true)
    (h : lookupKey s k = some e) :
    getCurrentCacheSize s = getCurrentCacheSize (eraseKey s k) + entrySize k e := by
  induction s with
  | nil => simp [lookupKey] at h
  | cons p rest ih =>
    obtain ⟨k₀, e₀⟩ := p
    by_cases h₀ : k₀ = k
    · subst h₀
      rw [lookupKey, if_pos rfl] at h
      have he : e₀ = e := Option.some.inj h
      subst he
      have hck : isCacheKey k₀ = true := hc _ (List.mem_cons_self _ _)
      rw [eraseKey, if_pos rfl]
      simp [getCurrentCacheSize, hck]
      omega
    · simp only [lookupKey, if_neg h₀] at h
      have := ih (fun p hp => hc p (List.mem_cons_of_mem _ hp)) h
      simp only [eraseKey, if_neg h₀, getCurrentCacheSize, List.map_cons, List.sum_cons] at this ⊢
      omega

theorem getCurrentCacheSize_mono (s₁ s₂ : CacheStore) (h : List.Sublist s₁ s₂) :
    getCurrentCacheSize s₁ ≤ getCurrentCacheSize s₂ :=
  List.Sublist.sum_le_sum (h.map _) (fun _ _ => Nat.zero_le _)

theorem evictFrom_sublist (budget : Nat) :
    ∀ (el : List (String × Nat)) (cur : Nat) (s : CacheStore),
      List.Sublist (evictFrom budget el cur s) s := by
  intro el
  induction el with
  | nil => intro cur s; simp [evictFrom]
  | cons q rest ih =>
    intro cur s
    obtain ⟨key, ts⟩ := q
    by_cases h : cur ≤ budget
    · simp [evictFrom, h]
    · simp only [evictFrom, if_neg h]
      cases hl : lookupKey s key with
      | some item => exact List.Sublist.trans (ih _ _) (eraseKey_sublist s key)
      | none => exact ih _ _

/-! ### Prefix and sort lemmas -/

theorem listStartsWith_append (p t : List Char) :
    listStartsWith p (p ++ t) = true := by
  induction p with
  | nil => simp [listStartsWith]
  | cons c cs ih => simp [listStartsWith, ih]

theorem generateKey_isCacheKey (m : String) (p : Nat) :
    isCacheKey (generateKey m p) = true := by
  unfold isCacheKey generateKey
  rw [String.data_append, String.data_append, String.data_append,
    List.append_assoc, List.append_assoc]
  exact listStartsWith_append _ _

theorem insertByTs_perm {α : Type} (ts : α → Nat) (x : α) (l : List α) :
    List.Perm (insertByTs ts x l) (x :: l) := by
  induction l with
  | nil => simp [insertByTs]
  | cons y ys ih =>
    by_cases h : ts x ≤ ts y
    · simp [insertByTs, h]
    · simp only [insertByTs, if_neg h]
      exact List.Perm.trans (List.Perm.cons y ih) (List.Perm.swap x y ys)

theorem sortByTs_perm {α : Type} (ts : α → Nat) (l : List α) :
    List.Perm (sortByTs ts l) l := by
  induction l with
  | nil => simp [sortByTs]
  | cons x xs ih =>
    exact List.Perm.trans (insertByTs_perm ts x (sortByTs ts xs)) (List.Perm.cons x ih)

theorem mem_insertByTs {α : Type} (ts : α → Nat) (x : α) (l : List α) :
    ∀ z ∈ insertByTs ts x l, z = x ∨ z ∈ l := by
  intro z hz
  have := (insertByTs_perm ts x l).mem_iff.mp hz
  simpa using this

theorem insertByTs_pairwise {α : Type} (ts : α → Nat) (x : α) (l : List α)
    (h : List.Pairwise (fun a b => ts a ≤ ts b) l) :
    List.Pairwise (fun a b => ts a ≤ ts b) (insertByTs ts x l) := by
  induction l with
  | nil => simp [insertByTs]
  | cons y ys ih =>
    rcases List.pairwise_cons.mp h with ⟨hy, hys⟩
    by_cases hle : ts x ≤ ts y
    · rw [insertByTs, if_pos hle]
      refine List.pairwise_cons.mpr ⟨?_, h⟩
      intro z hz
      rcases List.mem_cons.mp hz with hz' | hz'
      · exact hz' ▸ hle
      · exact Nat.le_trans hle (hy z hz')
    · rw [insertByTs, if_neg hle]
      refine List.pairwise_cons.mpr ⟨?_, ih hys⟩
      intro z hz
      rcases mem_insertByTs ts x ys z hz with hz' | hz'
      · exact hz' ▸ Nat.le_of_lt (Nat.lt_of_not_le hle)
      · exact hy z hz'

theorem sortByTs_pairwise {α : Type} (ts : α → Nat) (l : List α) :
    List.Pairwise (fun a b => ts a ≤ ts b) (sortByTs ts l) := by
  induction l with
  | nil => simp [sortByTs]
  | cons x xs ih => exact insertByTs_pairwise ts x (sortByTs ts xs) ih

theorem wf_of_sublist (s₁ s₂ : CacheStore) (h : List.Sublist s₁ s₂)
    (hwf : WFStore s₂) : WFStore s₁ :=
  ⟨fun p hp => hwf.1 p (h.subset hp), hwf.2.sublist (h.map Prod.fst)⟩

theorem not_mem_storeKeys_eraseKey (s : CacheStore) (k : String)
    (hnd : (storeKeys s).Nodup) : k ∉ storeKeys (eraseKey s k) := by
  induction s with
  | nil => simp [eraseKey, storeKeys]
  | cons p rest ih =>
    obtain ⟨k₀, e₀⟩ := p
    simp only [storeKeys, List.map_cons, List.nodup_cons] at hnd
    by_cases h₀ : k₀ = k
    · rw [eraseKey, if_pos h₀]
      exact h₀ ▸ hnd.1
    · rw [eraseKey, if_neg h₀]
      simp only [storeKeys, List.map_cons, List.mem_cons]
      rintro (hk | hk)
      · exact h₀ hk.symm
      · exact ih hnd.2 hk

/-- What the deletion loop of `enforceSizeLimit` does: it splits its (sorted)
entry list into a deleted front part and a retained back part; the store keeps
exactly the non-deleted keys; the resulting aggregate size is within budget;
and before each single deletion the running total still exceeded the budget
(so no entry is deleted needlessly). -/
theorem evictFrom_spec (budget : Nat) :
    ∀ (el : List (String × Nat)) (cur : Nat) (store : CacheStore),
      (storeKeys store).Nodup →
      (∀ p ∈ store, isCacheKey p.1 = true) →
      (∀ p ∈ store, p.1 ∈ el.map Prod.fst) →
      cur = getCurrentCacheSize store →
      ∃ dropped kept,
        el = dropped ++ kept ∧
        evictFrom budget el cur store = eraseKeys store (dropped.map Prod.fst) ∧
        getCurrentCacheSize (evictFrom budget el cur store) ≤ budget ∧
        ∀ i < dropped.length,
          budget < getCurrentCacheSize (eraseKeys store ((dropped.take i).map Prod.fst)) := by
  intro el
  induction el with
  | nil =>
    intro cur store hnd hc hcov hcur
    have hstore : store = [] := by
      apply List.eq_nil_iff_forall_not_mem.mpr
      intro p hp
      simpa using hcov p hp
    subst hstore
    exact ⟨[], [], by simp, by simp [evictFrom, eraseKeys],
      by simp [evictFrom, getCurrentCacheSize], by simp⟩
  | cons q rest ih =>
    intro cur store hnd hc hcov hcur
    obtain ⟨key, ts⟩ := q
    by_cases hb : cur ≤ budget
    · refine ⟨[], (key, ts) :: rest, by simp, ?_, ?_, by simp⟩
      · simp only [evictFrom, if_pos hb]
        rfl
      · simp only [evictFrom, if_pos hb]
        omega
    · cases hl : lookupKey store key with
      | some item =>
        have hrw : evictFrom budget ((key, ts) :: rest) cur store =
            evictFrom budget rest (cur - entrySize key item) (eraseKey store key) := by
          simp only [evictFrom, if_neg hb, hl]
        have hsub : List.Sublist (eraseKey store key) store := eraseKey_sublist store key
        have hnd' : (storeKeys (eraseKey store key)).Nodup :=
          hnd.sublist (hsub.map Prod.fst)
        have hc' : ∀ p ∈ eraseKey store key, isCacheKey p.1 = true :=
          fun p hp => hc p (hsub.subset hp)
        have hsz : getCurrentCacheSize store =
            getCurrentCacheSize (eraseKey store key) + entrySize key item :=
          getCurrentCacheSize_eraseKey store key item hc hl
        have hcov' : ∀ p ∈ eraseKey store key, p.1 ∈ rest.map Prod.fst := by
          intro p hp
          have hmem : p ∈ store := hsub.subset hp
          have h₁ : p.1 ∈ key :: rest.map Prod.fst := by simpa using hcov p hmem
          rcases List.mem_cons.mp h₁ with h₂ | h₂
          · exfalso
            have hmem2 : p.1 ∈ storeKeys (eraseKey store key) :=
              List.mem_map_of_mem Prod.fst hp
            rw [h₂] at hmem2
            exact not_mem_storeKeys_eraseKey store key hnd hmem2
          · exact h₂
        have hcur' : cur - entrySize key item = getCurrentCacheSize (eraseKey store key) := by
          omega
        obtain ⟨dropped', kept', hsplit, hres, hbound, hmin⟩ :=
          ih (cur - entrySize key item) (eraseKey store key) hnd' hc' hcov' hcur'
        refine ⟨(key, ts) :: dropped', kept', by simp [hsplit], ?_, ?_, ?_⟩
        · rw [hrw, hres]
          rfl
        · rw [hrw]
          exact hbound
        · intro i hi
          cases i with
          | zero =>
            simpa [eraseKeys] using Nat.lt_of_not_le (hcur ▸ hb)
          | succ j =>
            have hj : j < dropped'.length := by simpa using hi
            rw [List.take_succ_cons, List.map_cons, eraseKeys]
            exact hmin j hj
      | none =>
        have hrw : evictFrom budget ((key, ts) :: rest) cur store =
            evictFrom budget rest cur store := by
          simp only [evictFrom, if_neg hb, hl]
        have herase : eraseKey store key = store := eraseKey_of_lookup_none store key hl
        have hcov' : ∀ p ∈ store, p.1 ∈ rest.map Prod.fst := by
          intro p hp
          have h₁ : p.1 ∈ key :: rest.map Prod.fst := by simpa using hcov p hp
          rcases List.mem_cons.mp h₁ with h₂ | h₂
          · exfalso
            have hmem2 : p.1 ∈ storeKeys store := List.mem_map_of_mem Prod.fst hp
            rw [h₂] at hmem2
            exact ((lookupKey_none_iff store key).mp hl) hmem2
          · exact h₂
        obtain ⟨dropped', kept', hsplit, hres, hbound, hmin⟩ :=
          ih cur store hnd hc hcov' hcur
        refine ⟨(key, ts) :: dropped', kept', by simp [hsplit], ?_, ?_, ?_⟩
        · rw [hrw, hres]
          show eraseKeys store _ = eraseKeys (eraseKey store key) _
          rw [herase]
        · rw [hrw]
          exact hbound
        · intro i hi
          cases i with
          | zero =>
            simpa [eraseKeys] using Nat.lt_of_not_le (hcur ▸ hb)
          | succ j =>
            have hj : j < dropped'.length := by simpa using hi
            rw [List.take_succ_cons, List.map_cons, eraseKeys, herase]
            exact hmin j hj

theorem mem_sorted_keys (store : CacheStore) (p : String × CacheEntry)
    (hp : p ∈ store) (hck : isCacheKey p.1 = true) :
    p.1 ∈ (sortByTs (fun q => q.2) (cacheEntriesList store)).map Prod.fst := by
  have h₁ : p ∈ store.filter (fun q => isCacheKey q.1) :=
    List.mem_filter.mpr ⟨hp, hck⟩
  have h₂ : (p.1, p.2.timestamp) ∈ cacheEntriesList store := by
    unfold cacheEntriesList
    exact List.mem_map.mpr ⟨p, h₁, rfl⟩
  have h₃ : p.1 ∈ (cacheEntriesList store).map Prod.fst :=
    List.mem_map.mpr ⟨(p.1, p.2.timestamp), h₂, rfl⟩
  exact ((sortByTs_perm (fun q => q.2) (cacheEntriesList store)).map Prod.fst).mem_iff.mpr h₃

/-- `enforceSizeLimit` splits the timestamp-sorted entry list into a deleted
front and a retained back, deletes exactly the front's keys, lands at or
below budget, deletes older-or-equal timestamps only, and deletes nothing
needlessly. -/
theorem enforceSizeLimit_spec (budget : Nat) (store : CacheStore) (hwf : WFStore store) :
    ∃ dropped kept,
      sortByTs (fun q => q.2) (cacheEntriesList store) = dropped ++ kept ∧
      enforceSizeLimit budget store = eraseKeys store (dropped.map Prod.fst) ∧
      getCurrentCacheSize (enforceSizeLimit budget store) ≤ budget ∧
      (∀ d ∈ dropped, ∀ q ∈ kept, d.2 ≤ q.2) ∧
      (∀ i < dropped.length,
        budget < getCurrentCacheSize (eraseKeys store ((dropped.take i).map Prod.fst))) := by
  by_cases hover : getCurrentCacheSize store > budget
  · have hrw : enforceSizeLimit budget store =
        evictFrom budget (sortByTs (fun q => q.2) (cacheEntriesList store))
          (getCurrentCacheSize store) store := by
      simp only [enforceSizeLimit, if_pos hover]
    obtain ⟨dropped, kept, hsplit, hres, hbound, hmin⟩ :=
      evictFrom_spec budget (sortByTs (fun q => q.2) (cacheEntriesList store))
        (getCurrentCacheSize store) store hwf.2 hwf.1
        (fun p hp => mem_sorted_keys store p hp (hwf.1 p hp)) rfl
    refine ⟨dropped, kept, hsplit, by rw [hrw, hres], by rw [hrw]; exact hbound, ?_, hmin⟩
    have hpw := sortByTs_pairwise (fun q => q.2) (cacheEntriesList store)
    rw [hsplit, List.pairwise_append] at hpw
    exact hpw.2.2
  · refine ⟨[], sortByTs (fun q => q.2) (cacheEntriesList store), by simp, ?_, ?_, by simp, by simp⟩
    · simp only [enforceSizeLimit, if_neg hover]
      rfl
    · simp only [enforceSizeLimit, if_neg hover]
      omega

theorem enforceSizeLimit_sublist (budget : Nat) (store : CacheStore) :
    List.Sublist (enforceSizeLimit budget store) store := by
  by_cases hover : getCurrentCacheSize store > budget
  · simp only [enforceSizeLimit, if_pos hover]
    exact evictFrom_sublist budget _ _ _
  · simp only [enforceSizeLimit, if_neg hover]
    exact List.Sublist.refl _

theorem enforceSizeLimit_bounded (budget : Nat) (store : CacheStore) (hwf : WFStore store) :
    getCurrentCacheSize (enforceSizeLimit budget store) ≤ budget := by
  obtain ⟨_, _, _, _, hbound, _⟩ := enforceSizeLimit_spec budget store hwf
  exact hbound

theorem wf_setKey (s : CacheStore) (k : String) (v : CacheEntry)
    (hwf : WFStore s) (hk : isCacheKey k = true) : WFStore (setKey s k v) := by
  refine ⟨?_, nodup_setKey s k v hwf.2⟩
  intro p hp
  rcases mem_setKey s k v p hp with h | h
  · exact hwf.1 p h
  · rw [h]
    exact hk

theorem wf_saveOcrText (budget : Nat) (m : String) (pg : Nat) (t : String) (now : Nat)
    (s : CacheStore) (hwf : WFStore s) :
    WFStore (saveOcrText budget m pg t now s) := by
  unfold saveOcrText
  exact wf_of_sublist _ _ (enforceSizeLimit_sublist _ _)
    (wf_setKey _ _ _ hwf (generateKey_isCacheKey m pg))

theorem wf_saveTranslatedText (budget : Nat) (m : String) (pg : Nat) (t : String) (now : Nat)
    (s : CacheStore) (hwf : WFStore s) :
    WFStore (saveTranslatedText budget m pg t now s) := by
  unfold saveTranslatedText
  exact wf_of_sublist _ _ (enforceSizeLimit_sublist _ _)
    (wf_setKey _ _ _ hwf (generateKey_isCacheKey m pg))

theorem clearFileCache_sublist (m : String) (s : CacheStore) :
    List.Sublist (clearFileCache m s) s := List.filter_sublist s

theorem clearAllCache_sublist (s : CacheStore) :
    List.Sublist (clearAllCache s) s := List.filter_sublist s

theorem saveOcrText_bounded (budget : Nat) (m : String) (pg : Nat) (t : String) (now : Nat)
    (s : CacheStore) (hwf : WFStore s) :
    getCurrentCacheSize (saveOcrText budget m pg t now s) ≤ budget := by
  unfold saveOcrText
  exact enforceSizeLimit_bounded budget _ (wf_setKey _ _ _ hwf (generateKey_isCacheKey m pg))

theorem saveTranslatedText_bounded (budget : Nat) (m : String) (pg : Nat) (t : String) (now : Nat)
    (s : CacheStore) (hwf : WFStore s) :
    getCurrentCacheSize (saveTranslatedText budget m pg t now s) ≤ budget := by
  unfold saveTranslatedText
  exact enforceSizeLimit_bounded budget _ (wf_setKey _ _ _ hwf (generateKey_isCacheKey m pg))

theorem applyOp_invariant (budget : Nat) (op : CacheOp) (s : CacheStore)
    (hwf : WFStore s) (hsz : getCurrentCacheSize s ≤ budget) :
    WFStore (applyOp budget op s) ∧ getCurrentCacheSize (applyOp budget op s) ≤ budget := by
  cases op with
  | saveOcr m pg t now =>
    exact ⟨wf_saveOcrText budget m pg t now s hwf, saveOcrText_bounded budget m pg t now s hwf⟩
  | saveTranslated m pg t now =>
    exact ⟨wf_saveTranslatedText budget m pg t now s hwf,
      saveTranslatedText_bounded budget m pg t now s hwf⟩
  | clearFile m =>
    exact ⟨wf_of_sublist _ _ (clearFileCache_sublist m s) hwf,
      Nat.le_trans (getCurrentCacheSize_mono _ _ (clearFileCache_sublist m s)) hsz⟩
  | clearAll =>
    exact ⟨wf_of_sublist _ _ (clearAllCache_sublist s) hwf,
      Nat.le_trans (getCurrentCacheSize_mono _ _ (clearAllCache_sublist s)) hsz⟩

theorem applyOps_invariant (budget : Nat) (ops : List CacheOp) :
    ∀ (s : CacheStore), WFStore s → getCurrentCacheSize s ≤ budget →
      WFStore (applyOps budget ops s) ∧ getCurrentCacheSize (applyOps budget ops s) ≤ budget := by
  induction ops with
  | nil => intro s hwf hsz; exact ⟨hwf, hsz⟩
  | cons op rest ih =>
    intro s hwf hsz
    have h := applyOp_invariant budget op s hwf hsz
    exact ih (applyOp budget op s) h.1 h.2

theorem wf_empty : WFStore [] := ⟨by simp, by simp [storeKeys]⟩

theorem wf_applyOps_empty (budget : Nat) (ops : List CacheOp) :
    WFStore (applyOps budget ops []) :=
  (applyOps_invariant budget ops [] wf_empty (by simp [getCurrentCacheSize])).1

/-! ### Stability of the timestamp sort -/

theorem filter_insertByTs_eq {α : Type} (ts : α → Nat) (x : α) (t : Nat)
    (hx : ts x = t) (l : List α) :
    (insertByTs ts x l).filter (fun q => ts q == t) =
      x :: l.filter (fun q => ts q == t) := by
  induction l with
  | nil => simp [insertByTs, hx]
  | cons y ys ih =>
    by_cases hle : ts x ≤ ts y
    · rw [insertByTs, if_pos hle]
      simp [hx]
    · rw [insertByTs, if_neg hle]
      have hyt : (ts y == t) = false := by
        simp only [beq_eq_false_iff_ne, ne_eq]
        omega
      simp only [List.filter_cons, hyt]
      exact ih

theorem filter_insertByTs_ne {α : Type} (ts : α → Nat) (x : α) (t : Nat)
    (hx : ts x ≠ t) (l : List α) :
    (insertByTs ts x l).filter (fun q => ts q == t) =
      l.filter (fun q => ts q == t) := by
  induction l with
  | nil => simp [insertByTs, hx]
  | cons y ys ih =>
    by_cases hle : ts x ≤ ts y
    · rw [insertByTs, if_pos hle]
      have hxt : (ts x == t) = false := by simp [hx]
      simp [List.filter_cons, hxt]
    · rw [insertByTs, if_neg hle]
      simp only [List.filter_cons]
      rw [ih]

/-- The sort used by `enforceSizeLimit` is stable: entries sharing a
timestamp keep their store enumeration order. -/
theorem sortByTs_stable {α : Type} (ts : α → Nat) (l : List α) (t : Nat) :
    (sortByTs ts l).filter (fun q => ts q == t) = l.filter (fun q => ts q == t) := by
  induction l with
  | nil => simp [sortByTs]
  | cons x xs ih =>
    by_cases hx : ts x = t
    · rw [sortByTs, filter_insertByTs_eq ts x t hx, ih]
      simp [hx]
    · rw [sortByTs, filter_insertByTs_ne ts x t hx, ih]
      have hxt : (ts x == t) = false := by simp [hx]
      simp [List.filter_cons, hxt]

/-! ### Lookup through save and clear operations -/

theorem lookupKey_some_mem (s : CacheStore) (k : String) (e : CacheEntry)
    (h : lookupKey s k = some e) : (k, e) ∈ s := by
  induction s with
  | nil => simp [lookupKey] at h
  | cons p rest ih =>
    obtain ⟨k₀, e₀⟩ := p
    by_cases h₀ : k₀ = k
    · rw [lookupKey, if_pos h₀] at h
      have := Option.some.inj h
      subst h₀ this
      exact List.mem_cons_self _ _
    · rw [lookupKey, if_neg h₀] at h
      exact List.mem_cons_of_mem _ (ih h)

theorem mem_lookupKey (s : CacheStore) (k : String) (e : CacheEntry)
    (hnd : (storeKeys s).Nodup) (h : (k, e) ∈ s) : lookupKey s k = some e := by
  induction s with
  | nil => simp at h
  | cons p rest ih =>
    obtain ⟨k₀, e₀⟩ := p
    simp only [storeKeys, List.map_cons, List.nodup_cons] at hnd
    rcases List.mem_cons.mp h with h₁ | h₁
    · rw [lookupKey]
      have hk₀ : k₀ = k := (congrArg Prod.fst h₁).symm
      have he₀ : e₀ = e := (congrArg Prod.snd h₁).symm
      rw [if_pos hk₀, he₀]
    · have hne : k₀ ≠ k := by
        intro hc
        apply hnd.1
        have : k ∈ storeKeys rest := List.mem_map_of_mem Prod.fst h₁
        rw [hc]
        exact this
      rw [lookupKey, if_neg hne]
      exact ih hnd.2 h₁

theorem lookup_of_sublist (s' s : CacheStore) (k : String) (e : CacheEntry)
    (hsub : List.Sublist s' s) (hnd : (storeKeys s).Nodup)
    (h : lookupKey s' k = some e) : lookupKey s k = some e :=
  mem_lookupKey s k e hnd (hsub.subset (lookupKey_some_mem s' k e h))

/-- Eviction only deletes whole entries: an entry still present after
`enforceSizeLimit` is exactly the entry that was present before. -/
theorem lookup_enforceSizeLimit_some (budget : Nat) (store : CacheStore)
    (k : String) (e : CacheEntry) (hnd : (storeKeys store).Nodup)
    (h : lookupKey (enforceSizeLimit budget store) k = some e) :
    lookupKey store k = some e :=
  lookup_of_sublist _ store k e (enforceSizeLimit_sublist budget store) hnd h

/-- The entry found under a page's key right after `saveOcrText` is the merged
entry: new OCR text, fresh shared timestamp, translated text carried over. -/
theorem lookupKey_saveOcrText (budget : Nat) (m : String) (pg : Nat) (v : String)
    (now : Nat) (store : CacheStore) (hwf : WFStore store) (e : CacheEntry)
    (h : lookupKey (saveOcrText budget m pg v now store) (generateKey m pg) = some e) :
    e = (match lookupKey store (generateKey m pg) with
      | some old => { old with ocrText := some v, timestamp := now }
      | none => { ocrText := some v, translatedText := none, timestamp := now }) := by
  set key := generateKey m pg with hkey
  set newEntry : CacheEntry := (match lookupKey store key with
    | some old => { old with ocrText := some v, timestamp := now }
    | none => { ocrText := some v, translatedText := none, timestamp := now }) with hnew
  have hs : saveOcrText budget m pg v now store =
      enforceSizeLimit budget (setKey store key newEntry) := by
    rw [saveOcrText, hnew, hkey]
  rw [hs] at h
  have hnd' : (storeKeys (setKey store key newEntry)).Nodup := nodup_setKey store key newEntry hwf.2
  have h₂ : lookupKey (setKey store key newEntry) key = some e :=
    lookup_enforceSizeLimit_some budget _ key e hnd' h
  rw [lookupKey_setKey_self store key newEntry] at h₂
  exact (Option.some.inj h₂).symm

/-- Same for `saveTranslatedText`: new translated text, fresh shared
timestamp, OCR text carried over. -/
theorem lookupKey_saveTranslatedText (budget : Nat) (m : String) (pg : Nat) (v : String)
    (now : Nat) (store : CacheStore) (hwf : WFStore store) (e : CacheEntry)
    (h : lookupKey (saveTranslatedText budget m pg v now store) (generateKey m pg) = some e) :
    e = (match lookupKey store (generateKey m pg) with
      | some old => { old with translatedText := some v, timestamp := now }
      | none => { ocrText := none, translatedText := some v, timestamp := now }) := by
  set key := generateKey m pg with hkey
  set newEntry : CacheEntry := (match lookupKey store key with
    | some old => { old with translatedText := some v, timestamp := now }
    | none => { ocrText := none, translatedText := some v, timestamp := now }) with hnew
  have hs : saveTranslatedText budget m pg v now store =
      enforceSizeLimit budget (setKey store key newEntry) := by
    rw [saveTranslatedText, hnew, hkey]
  rw [hs] at h
  have hnd' : (storeKeys (setKey store key newEntry)).Nodup := nodup_setKey store key newEntry hwf.2
  have h₂ : lookupKey (setKey store key newEntry) key = some e :=
    lookup_enforceSizeLimit_some budget _ key e hnd' h
  rw [lookupKey_setKey_self store key newEntry] at h₂
  exact (Option.some.inj h₂).symm

theorem generateKey_eq_marker_append (m : String) (pg : Nat) :
    generateKey m pg = ("cache_" ++ m ++ "_") ++ natToDec pg := rfl

/-- `clearFileCache` deletes a page's single shared entry outright. -/
theorem lookupKey_clearFileCache (m : String) (pg : Nat) (store : CacheStore) :
    lookupKey (clearFileCache m store) (generateKey m pg) = none := by
  rw [lookupKey_none_iff]
  intro hmem
  simp only [storeKeys, List.mem_map] at hmem
  obtain ⟨p, hp, hpk⟩ := hmem
  have hfilter := List.of_mem_filter hp
  rw [hpk, generateKey_eq_marker_append] at hfilter
  simp only [String.data_append] at hfilter
  rw [listStartsWith_append] at hfilter
  simp at hfilter

/-! ### Injectivity of the decimal page key -/

theorem digitChar_inj_fin : ∀ (a b : Fin 10), digitChar a.val = digitChar b.val → a = b := by
  decide

theorem digitChar_inj (a b : Nat) (ha : a < 10) (hb : b < 10)
    (h : digitChar a = digitChar b) : a = b :=
  congrArg Fin.val (digitChar_inj_fin ⟨a, ha⟩ ⟨b, hb⟩ h)

theorem decCharsCore_congr : ∀ (n f₁ f₂ : Nat), n < f₁ → n < f₂ →
    decCharsCore f₁ n = decCharsCore f₂ n := by
  intro n
  induction n using Nat.strong_induction_on with
  | _ n ih =>
    intro f₁ f₂ h₁ h₂
    cases f₁ with
    | zero => omega
    | succ a =>
      cases f₂ with
      | zero => omega
      | succ b =>
        by_cases h10 : n < 10
        · rw [decCharsCore, decCharsCore, if_pos h10, if_pos h10]
        · have hd : n / 10 < n := Nat.div_lt_self (by omega) (by omega)
          rw [decCharsCore, decCharsCore, if_neg h10, if_neg h10,
            ih (n / 10) hd a b (by omega) (by omega)]

theorem decChars_lt (n : Nat) (h : n < 10) : decChars n = [digitChar n] := by
  rw [decChars, decCharsCore, if_pos h]

theorem decChars_ge (n : Nat) (h : ¬ n < 10) :
    decChars n = decChars (n / 10) ++ [digitChar (n % 10)] := by
  have hd : n / 10 < n := Nat.div_lt_self (by omega) (by omega)
  rw [decChars, decCharsCore, if_neg h,
    decCharsCore_congr (n / 10) n (n / 10 + 1) hd (by omega)]
  rfl

theorem decChars_ne_nil (n : Nat) : decChars n ≠ [] := by
  by_cases h : n < 10
  · rw [decChars_lt n h]
    simp
  · rw [decChars_ge n h]
    simp

theorem decChars_inj : ∀ (m n : Nat), decChars m = decChars n → m = n := by
  intro m
  induction m using Nat.strong_induction_on with
  | _ m ih =>
    intro n h
    by_cases hm : m < 10 <;> by_cases hn : n < 10
    · rw [decChars_lt m hm, decChars_lt n hn] at h
      exact digitChar_inj m n hm hn (List.cons.inj h).1
    · rw [decChars_lt m hm, decChars_ge n hn] at h
      have hlen : ([digitChar m]).length =
          (decChars (n / 10) ++ [digitChar (n % 10)]).length := congrArg List.length h
      rw [List.length_append] at hlen
      simp only [List.length_singleton] at hlen
      exact absurd (List.length_eq_zero.mp (by omega)) (decChars_ne_nil (n / 10))
    · rw [decChars_ge m hm, decChars_lt n hn] at h
      have hlen : ((decChars (m / 10) ++ [digitChar (m % 10)])).length =
          ([digitChar n]).length := congrArg List.length h
      rw [List.length_append] at hlen
      simp only [List.length_singleton] at hlen
      exact absurd (List.length_eq_zero.mp (by omega)) (decChars_ne_nil (m / 10))
    · rw [decChars_ge m hm, decChars_ge n hn] at h
      have h' := congrArg List.reverse h
      simp only [List.reverse_append, List.reverse_cons, List.reverse_nil,
        List.nil_append, List.singleton_append] at h'
      have h₁ := (List.cons.inj h').1
      have h₂ := (List.cons.inj h').2
      have hmod : m % 10 = n % 10 :=
        digitChar_inj _ _ (Nat.mod_lt _ (by omega)) (Nat.mod_lt _ (by omega)) h₁
      have hdiv : m / 10 = n / 10 := by
        apply ih (m / 10) (Nat.div_lt_self (by omega) (by omega))
        have h₃ := congrArg List.reverse h₂
        simpa using h₃
      omega

theorem natToDec_inj (m n : Nat) (h : natToDec m = natToDec n) : m = n :=
  decChars_inj m n (congrArg String.data h)

theorem generateKey_page_inj (m : String) (p₁ p₂ : Nat)
    (h : generateKey m p₁ = generateKey m p₂) : p₁ = p₂ := by
  rw [generateKey_eq_marker_append, generateKey_eq_marker_append] at h
  have hd := congrArg String.data h
  simp only [String.data_append] at hd
  have hc := List.append_cancel_left hd
  exact natToDec_inj p₁ p₂ (by
    apply congrArg String.mk
    exact hc)

/-- A save issued for one page never touches another page's entry beyond the
possibility of evicting it whole: the other page's lookup is unchanged or
absent, never overwritten. -/
theorem saveTranslatedText_other_page (budget : Nat) (m : String) (p₁ p₂ : Nat)
    (v : String) (now : Nat) (store : CacheStore) (hwf : WFStore store) (hne : p₁ ≠ p₂) :
    lookupKey (saveTranslatedText budget m p₁ v now store) (generateKey m p₂) =
      lookupKey store (generateKey m p₂) ∨
    lookupKey (saveTranslatedText budget m p₁ v now store) (generateKey m p₂) = none := by
  have hkne : generateKey m p₂ ≠ generateKey m p₁ := by
    intro hc
    exact hne ((generateKey_page_inj m p₂ p₁ hc).symm)
  cases hres : lookupKey (saveTranslatedText budget m p₁ v now store) (generateKey m p₂) with
  | none => right; rfl
  | some e =>
    left
    rw [saveTranslatedText] at hres
    have hnd' := nodup_setKey store (generateKey m p₁)
      (match lookupKey store (generateKey m p₁) with
        | some existing => { existing with translatedText := some v, timestamp := now }
        | none => { ocrText := none, translatedText := some v, timestamp := now }) hwf.2
    have h₂ := lookup_enforceSizeLimit_some budget _ (generateKey m p₂) e hnd' hres
    rw [lookupKey_setKey_ne store (generateKey m p₁) (generateKey m p₂) _ hkne] at h₂
    exact h₂.symm

/-- Same isolation for `saveOcrText`. -/
theorem saveOcrText_other_page (budget : Nat) (m : String) (p₁ p₂ : Nat)
    (v : String) (now : Nat) (store : CacheStore) (hwf : WFStore store) (hne : p₁ ≠ p₂) :
    lookupKey (saveOcrText budget m p₁ v now store) (generateKey m p₂) =
      lookupKey store (generateKey m p₂) ∨
    lookupKey (saveOcrText budget m p₁ v now store) (generateKey m p₂) = none := by
  have hkne : generateKey m p₂ ≠ generateKey m p₁ := by
    intro hc
    exact hne ((generateKey_page_inj m p₂ p₁ hc).symm)
  cases hres : lookupKey (saveOcrText budget m p₁ v now store) (generateKey m p₂) with
  | none => right; rfl
  | some e =>
    left
    rw [saveOcrText] at hres
    have hnd' := nodup_setKey store (generateKey m p₁)
      (match lookupKey store (generateKey m p₁) with
        | some existing => { existing with ocrText := some v, timestamp := now }
        | none => { ocrText := some v, translatedText := none, timestamp := now }) hwf.2
    have h₂ := lookup_enforceSizeLimit_some budget _ (generateKey m p₂) e hnd' hres
    rw [lookupKey_setKey_ne store (generateKey m p₁) (generateKey m p₂) _ hkne] at h₂
    exact h₂.symm

/-- Duplicate listeners fire nothing when the tracked process id differs. -/
theorem dispatchTtsFinished_miss : ∀ (n : Nat) (s : TtsState) (pid : String),
    s.currentProcessId ≠ some pid → dispatchTtsFinished n s pid = (s, 0) := by
  intro n
  induction n with
  | zero => intro s pid _; rfl
  | succ k ih =>
    intro s pid h
    have hh : handleTtsFinished s pid = (s, false) := by
      simp only [handleTtsFinished, if_neg h]
    simp [dispatchTtsFinished, hh, ih s pid h]

/-! ### Claim theorems for the cache -/

/-- Claim C1: starting from an empty persisted store, after every mutating
cache operation of any sequence (saveOcrText, saveTranslatedText,
clearFileCache, clearAllCache) the aggregate serialized size of all cache
entries (key length + value lengths + fixed 8-byte timestamp overhead) is at
or below the configured byte budget; and on any store, `enforceSizeLimit`
deletes a front segment of the timestamp-ascending-sorted entry list —
oldest `writtenAt` first, recomputing the running total, each deletion
happening only while the total still exceeds the budget — so the retained
entries are exactly the most-recent-`writtenAt` suffix that fits. -/
theorem cache_size_invariant_and_eviction :
    (∀ (budget : Nat) (ops : List CacheOp),
      getCurrentCacheSize (applyOps budget ops []) ≤ budget) ∧
    (∀ (budget : Nat) (store : CacheStore), WFStore store →
      ∃ dropped kept,
        sortByTs (fun q => q.2) (cacheEntriesList store) = dropped ++ kept ∧
        enforceSizeLimit budget store = eraseKeys store (dropped.map Prod.fst) ∧
        getCurrentCacheSize (enforceSizeLimit budget store) ≤ budget ∧
        (∀ d ∈ dropped, ∀ q ∈ kept, d.2 ≤ q.2) ∧
        (∀ i < dropped.length,
          budget < getCurrentCacheSize (eraseKeys store ((dropped.take i).map Prod.fst)))) :=
  ⟨fun budget ops =>
      (applyOps_invariant budget ops [] wf_empty (by simp [getCurrentCacheSize])).2,
    fun budget store hwf => enforceSizeLimit_spec budget store hwf⟩

/-- Witness for C1: a concrete two-entry store (42 bytes) over a 21-byte
budget evicts down to at most 21 bytes, and a concrete operation sequence
stays within budget. -/
theorem cache_size_invariant_and_eviction_witness :
    WFStore [("cache_m_2", CacheEntry.mk (some "aaaa") none 5),
      ("cache_m_1", CacheEntry.mk (some "bbbb") none 6)] ∧
    getCurrentCacheSize
      (applyOps 21 [CacheOp.saveOcr "m" 2 "aaaa" 5, CacheOp.saveOcr "m" 1 "bbbb" 6] []) ≤ 21 ∧
    (∃ dropped kept,
      sortByTs (fun q => q.2)
        (cacheEntriesList [("cache_m_2", CacheEntry.mk (some "aaaa") none 5),
          ("cache_m_1", CacheEntry.mk (some "bbbb") none 6)]) = dropped ++ kept ∧
      enforceSizeLimit 21 [("cache_m_2", CacheEntry.mk (some "aaaa") none 5),
          ("cache_m_1", CacheEntry.mk (some "bbbb") none 6)] =
        eraseKeys [("cache_m_2", CacheEntry.mk (some "aaaa") none 5),
          ("cache_m_1", CacheEntry.mk (some "bbbb") none 6)] (dropped.map Prod.fst) ∧
      getCurrentCacheSize (enforceSizeLimit 21 [("cache_m_2", CacheEntry.mk (some "aaaa") none 5),
          ("cache_m_1", CacheEntry.mk (some "bbbb") none 6)]) ≤ 21 ∧
      (∀ d ∈ dropped, ∀ q ∈ kept, d.2 ≤ q.2) ∧
      (∀ i < dropped.length,
        21 < getCurrentCacheSize
          (eraseKeys [("cache_m_2", CacheEntry.mk (some "aaaa") none 5),
            ("cache_m_1", CacheEntry.mk (some "bbbb") none 6)]
            ((dropped.take i).map Prod.fst)))) :=
  ⟨⟨by decide, by decide⟩,
    cache_size_invariant_and_eviction.1 21
      [CacheOp.saveOcr "m" 2 "aaaa" 5, CacheOp.saveOcr "m" 1 "bbbb" 6],
    cache_size_invariant_and_eviction.2 21
      [("cache_m_2", CacheEntry.mk (some "aaaa") none 5),
        ("cache_m_1", CacheEntry.mk (some "bbbb") none 6)] ⟨by decide, by decide⟩⟩

/-- Claim C4 counterexample: saving the EMPTY string for (m, page 1) into an
empty store (nothing evicted, nothing cleared — the entry provably remains
stored) and reading the same key back yields `none`, not the value written:
`entry?.ocrText || null` collapses an empty stored string to `null`. -/
theorem put_get_empty_string_counterexample :
    getOcrText (saveOcrText 10485760 "m" 1 "" 5 []) "m" 1 = none ∧
    lookupKey (saveOcrText 10485760 "m" 1 "" 5 []) (generateKey "m" 1) =
      some (CacheEntry.mk (some "") none 5) := by decide

/-- Claim C4 (amended): for every NON-empty value, writing and then reading
the same (fingerprint, page, kind) returns exactly the value written, as
long as the entry was not evicted by the size policy (and no clear
intervened); a written empty string reads back as absent. -/
theorem put_get_roundtrip :
    ∀ (budget : Nat) (m : String) (pg : Nat) (v : String) (now : Nat) (store : CacheStore),
      WFStore store → v ≠ "" →
      ((lookupKey (saveOcrText budget m pg v now store) (generateKey m pg)).isSome →
        getOcrText (saveOcrText budget m pg v now store) m pg = some v) ∧
      ((lookupKey (saveTranslatedText budget m pg v now store) (generateKey m pg)).isSome →
        getTranslatedText (saveTranslatedText budget m pg v now store) m pg = some v) := by
  intro budget m pg v now store hwf hv
  constructor
  · intro hsome
    obtain ⟨e, he⟩ := Option.isSome_iff_exists.mp hsome
    have hshape := lookupKey_saveOcrText budget m pg v now store hwf e he
    have hocr : e.ocrText = some v := by
      rw [hshape]
      cases lookupKey store (generateKey m pg) <;> rfl
    simp only [getOcrText, he]
    rw [hocr]
    simp [jsTruthyText, hv]
  · intro hsome
    obtain ⟨e, he⟩ := Option.isSome_iff_exists.mp hsome
    have hshape := lookupKey_saveTranslatedText budget m pg v now store hwf e he
    have htr : e.translatedText = some v := by
      rw [hshape]
      cases lookupKey store (generateKey m pg) <;> rfl
    simp only [getTranslatedText, he]
    rw [htr]
    simp [jsTruthyText, hv]

/-- Witness for the amended C4: a concrete non-empty value round-trips. -/
theorem put_get_roundtrip_witness :
    WFStore [] ∧ "hello" ≠ "" ∧
    ((lookupKey (saveOcrText 10485760 "m" 1 "hello" 5 []) (generateKey "m" 1)).isSome →
      getOcrText (saveOcrText 10485760 "m" 1 "hello" 5 []) "m" 1 = some "hello") ∧
    ((lookupKey (saveTranslatedText 10485760 "m" 1 "hello" 5 []) (generateKey "m" 1)).isSome →
      getTranslatedText (saveTranslatedText 10485760 "m" 1 "hello" 5 []) "m" 1 = some "hello") :=
  ⟨⟨by decide, by decide⟩, by decide,
    (put_get_roundtrip 10485760 "m" 1 "hello" 5 [] ⟨by decide, by decide⟩ (by decide)).1,
    (put_get_roundtrip 10485760 "m" 1 "hello" 5 [] ⟨by decide, by decide⟩ (by decide)).2⟩

/-- Claim C6 counterexample: two entries tied at `writtenAt = 5`, both sized
21 bytes under a 21-byte budget.  The source eviction (comparator on the
timestamp alone, stable sort) evicts `cache_m_2` — the key enumerated first
in the store — and keeps `cache_m_1`; the claimed key-natural-order
tie-break would evict `cache_m_1` and keep `cache_m_2`.  The outcomes
differ, so ties are NOT decided by the keys' ordering. -/
theorem eviction_tie_break_counterexample :
    enforceSizeLimit 21 [("cache_m_2", CacheEntry.mk (some "aaaa") none 5),
        ("cache_m_1", CacheEntry.mk (some "bbbb") none 5)] =
      [("cache_m_1", CacheEntry.mk (some "bbbb") none 5)] ∧
    enforceSizeLimitSpecTie 21 [("cache_m_2", CacheEntry.mk (some "aaaa") none 5),
        ("cache_m_1", CacheEntry.mk (some "bbbb") none 5)] =
      [("cache_m_2", CacheEntry.mk (some "aaaa") none 5)] := by decide

/-- Claim C6 (amended): the eviction order sorts by `writtenAt` alone;
whenever entries share a `writtenAt`, their eviction order is the store's
key enumeration order (the sort is stable), not the keys' natural ordering.
Eviction remains deterministic for a given store content and enumeration
order. -/
theorem eviction_sort_stable :
    ∀ (store : CacheStore) (t : Nat),
      List.Pairwise (fun a b => a.2 ≤ b.2) (sortByTs (fun q => q.2) (cacheEntriesList store)) ∧
      (sortByTs (fun q => q.2) (cacheEntriesList store)).filter (fun q => q.2 == t) =
        (cacheEntriesList store).filter (fun q => q.2 == t) :=
  fun st t => ⟨sortByTs_pairwise (fun q => q.2) (cacheEntriesList st), sortByTs_stable _ _ t⟩

/-- Claim C7 counterexample: with the persistence layer unavailable
(`this.store` is `null`), `saveOcrText` returns normally — no error is
raised to the caller and nothing is written — instead of failing loudly. -/
theorem save_unavailable_counterexample :
    saveOcrTextSvc 10485760 "m" 1 "hello" 5 none = (none, SaveResult.returnedNormally) := rfl

/-- Claim C7 (amended): a save call never raises to its caller: when the
persistence layer is unavailable it returns normally without writing; when
the layer is available, the store returned (and persisted via the awaited
`store.save()`) before the call returns carries the written value under the
page's key with a fresh timestamp. -/
theorem save_write_behavior :
    ∀ (budget : Nat) (m : String) (pg : Nat) (v : String) (now : Nat) (s : CacheStore),
      WFStore s →
      saveOcrTextSvc budget m pg v now none = (none, SaveResult.returnedNormally) ∧
      saveTranslatedTextSvc budget m pg v now none = (none, SaveResult.returnedNormally) ∧
      saveOcrTextSvc budget m pg v now (some s) =
        (some (saveOcrText budget m pg v now s), SaveResult.returnedNormally) ∧
      saveTranslatedTextSvc budget m pg v now (some s) =
        (some (saveTranslatedText budget m pg v now s), SaveResult.returnedNormally) ∧
      (∀ e, lookupKey (saveOcrText budget m pg v now s) (generateKey m pg) = some e →
        e.ocrText = some v ∧ e.timestamp = now) := by
  intro budget m pg v now s hwf
  refine ⟨rfl, rfl, rfl, rfl, ?_⟩
  intro e he
  have hshape := lookupKey_saveOcrText budget m pg v now s hwf e he
  rw [hshape]
  cases lookupKey s (generateKey m pg) <;> exact ⟨rfl, rfl⟩

/-- Witness for the amended C7 at concrete inputs. -/
theorem save_write_behavior_witness :
    WFStore [] ∧
    (saveOcrTextSvc 100 "m" 1 "x" 7 none = (none, SaveResult.returnedNormally) ∧
      saveTranslatedTextSvc 100 "m" 1 "x" 7 none = (none, SaveResult.returnedNormally) ∧
      saveOcrTextSvc 100 "m" 1 "x" 7 (some []) =
        (some (saveOcrText 100 "m" 1 "x" 7 []), SaveResult.returnedNormally) ∧
      saveTranslatedTextSvc 100 "m" 1 "x" 7 (some []) =
        (some (saveTranslatedText 100 "m" 1 "x" 7 []), SaveResult.returnedNormally) ∧
      (∀ e, lookupKey (saveOcrText 100 "m" 1 "x" 7 []) (generateKey "m" 1) = some e →
        e.ocrText = some "x" ∧ e.timestamp = 7)) :=
  ⟨⟨by decide, by decide⟩, save_write_behavior 100 "m" 1 "x" 7 [] ⟨by decide, by decide⟩⟩

/-- Claim C10: OCR text and translated text of a page share one entry under
the single key `cache_<fingerprint>_<page>` with a single timestamp:
saving either artifact overwrites the shared timestamp with the current
time and carries the other artifact over; eviction removes entries whole
(an entry present after `enforceSizeLimit` is unchanged, never stripped of
one artifact); and clearing a file removes the page's whole entry. -/
theorem shared_entry_per_page :
    ∀ (budget : Nat) (m : String) (pg : Nat) (v : String) (now : Nat) (store : CacheStore),
      WFStore store →
      (∀ e, lookupKey (saveOcrText budget m pg v now store) (generateKey m pg) = some e →
        e.ocrText = some v ∧ e.timestamp = now ∧
        e.translatedText = (match lookupKey store (generateKey m pg) with
          | some old => old.translatedText
          | none => none)) ∧
      (∀ e, lookupKey (saveTranslatedText budget m pg v now store) (generateKey m pg) = some e →
        e.translatedText = some v ∧ e.timestamp = now ∧
        e.ocrText = (match lookupKey store (generateKey m pg) with
          | some old => old.ocrText
          | none => none)) ∧
      (∀ k e, lookupKey (enforceSizeLimit budget store) k = some e →
        lookupKey store k = some e) ∧
      lookupKey (clearFileCache m store) (generateKey m pg) = none := by
  intro budget m pg v now store hwf
  refine ⟨?_, ?_, ?_, lookupKey_clearFileCache m pg store⟩
  · intro e he
    have hshape := lookupKey_saveOcrText budget m pg v now store hwf e he
    rw [hshape]
    cases lookupKey store (generateKey m pg) <;> exact ⟨rfl, rfl, rfl⟩
  · intro e he
    have hshape := lookupKey_saveTranslatedText budget m pg v now store hwf e he
    rw [hshape]
    cases lookupKey store (generateKey m pg) <;> exact ⟨rfl, rfl, rfl⟩
  · intro k e he
    exact lookup_enforceSizeLimit_some budget store k e hwf.2 he

/-- Witness for C10 at a concrete store holding both artifacts for page 1. -/
theorem shared_entry_per_page_witness :
    WFStore [("cache_m_1", CacheEntry.mk (some "o") (some "t") 3)] ∧
    ((∀ e, lookupKey (saveOcrText 100 "m" 1 "o2" 9
          [("cache_m_1", CacheEntry.mk (some "o") (some "t") 3)]) (generateKey "m" 1) = some e →
        e.ocrText = some "o2" ∧ e.timestamp = 9 ∧
        e.translatedText = (match lookupKey [("cache_m_1", CacheEntry.mk (some "o") (some "t") 3)]
            (generateKey "m" 1) with
          | some old => old.translatedText
          | none => none)) ∧
      (∀ e, lookupKey (saveTranslatedText 100 "m" 1 "o2" 9
          [("cache_m_1", CacheEntry.mk (some "o") (some "t") 3)]) (generateKey "m" 1) = some e →
        e.translatedText = some "o2" ∧ e.timestamp = 9 ∧
        e.ocrText = (match lookupKey [("cache_m_1", CacheEntry.mk (some "o") (some "t") 3)]
            (generateKey "m" 1) with
          | some old => old.ocrText
          | none => none)) ∧
      (∀ k e, lookupKey (enforceSizeLimit 100
          [("cache_m_1", CacheEntry.mk (some "o") (some "t") 3)]) k = some e →
        lookupKey [("cache_m_1", CacheEntry.mk (some "o") (some "t") 3)] k = some e) ∧
      lookupKey (clearFileCache "m" [("cache_m_1", CacheEntry.mk (some "o") (some "t") 3)])
        (generateKey "m" 1) = none) :=
  ⟨⟨by decide, by decide⟩,
    shared_entry_per_page 100 "m" 1 "o2" 9
      [("cache_m_1", CacheEntry.mk (some "o") (some "t") 3)] ⟨by decide, by decide⟩⟩

/-! ### Claim theorems for the pipeline, stream, narration and errors -/

/-- Claim C2 counterexample: an OCR call issued for page 1 resolves with
"X" while page 2 is on screen (reachable: with auto-OCR disabled no newer
call aborts it — navigation alone issues no OCR).  `extractText`'s
continuation applies the result to the visible text with no page check, so
page 1's late result appears as page 2's text, contradicting "the visible
text is only ever overwritten by results whose originating page number
equals the page currently on screen". -/
theorem stale_ocr_overwrites_visible_counterexample :
    (ocrResolve 10485760 "m" 1 "X" 5
      (UiState.mk 2 "page two" (-1) "" none [])).extractedText = "X" ∧
    (UiState.mk 2 "page two" (-1) "" none []).pageNumber = 2 ∧
    ("X" : String) ≠ "page two" := by decide

/-- Claim C2 (amended): STREAMED TRANSLATION output is applied to the
visible text only when the page being translated equals the page on screen
(the gating effect is a no-op otherwise, and chunk arrival itself never
touches the visible text), and a late call's completion writes only its own
page's cache key — the other page's entry is left unchanged or evicted
whole, never overwritten.  A late RECOGNITION result, however, is applied
to the visible text unconditionally; its only protection is that a
superseding call aborts it, making it resolve empty, which is discarded. -/
theorem cross_page_gating :
    ∀ (s : UiState) (budget : Nat) (m : String) (p₁ p₂ : Nat)
      (chunk buffer v : String) (now : Nat),
      WFStore s.store →
      (s.translatingPage ≠ (s.pageNumber : Int) →
        (applyTranslatingGate s).extractedText = s.extractedText) ∧
      ((translateOnChunk p₁ chunk buffer s).2.extractedText = s.extractedText) ∧
      (p₁ ≠ p₂ →
        lookupKey (translateResolve budget m p₁ v now s).store (generateKey m p₂) =
          lookupKey s.store (generateKey m p₂) ∨
        lookupKey (translateResolve budget m p₁ v now s).store (generateKey m p₂) = none) ∧
      (p₁ ≠ p₂ →
        lookupKey (ocrResolve budget m p₁ v now s).store (generateKey m p₂) =
          lookupKey s.store (generateKey m p₂) ∨
        lookupKey (ocrResolve budget m p₁ v now s).store (generateKey m p₂) = none) ∧
      (ocrResolve budget m p₁ "" now s = s) := by
  intro s budget m p₁ p₂ chunk buffer v now hwf
  refine ⟨?_, rfl, ?_, ?_, by simp [ocrResolve]⟩
  · intro h
    rw [applyTranslatingGate, if_neg (fun hc => h hc.symm)]
  · intro hne
    by_cases hv : v = ""
    · left
      rw [translateResolve, if_neg (by simpa using hv)]
    · rw [translateResolve, if_pos (by simpa using hv)]
      exact saveTranslatedText_other_page budget m p₁ p₂ v now s.store hwf hne
  · intro hne
    by_cases hv : v = ""
    · left
      rw [ocrResolve, if_neg (by simpa using hv)]
    · rw [ocrResolve, if_pos (by simpa using hv)]
      exact saveOcrText_other_page budget m p₁ p₂ v now s.store hwf hne

/-- Witness for the amended C2 at a concrete state and pages 1 ≠ 2. -/
theorem cross_page_gating_witness :
    WFStore (UiState.mk 2 "page two" (-1) "" none []).store ∧
    ((UiState.mk 2 "page two" (-1) "" none []).translatingPage ≠
        ((UiState.mk 2 "page two" (-1) "" none []).pageNumber : Int) →
      (applyTranslatingGate (UiState.mk 2 "page two" (-1) "" none [])).extractedText =
        (UiState.mk 2 "page two" (-1) "" none []).extractedText) ∧
    ((1 : Nat) ≠ 2 →
      lookupKey (translateResolve 100 "m" 1 "你好" 5
          (UiState.mk 2 "page two" (-1) "" none [])).store (generateKey "m" 2) =
        lookupKey (UiState.mk 2 "page two" (-1) "" none []).store (generateKey "m" 2) ∨
      lookupKey (translateResolve 100 "m" 1 "你好" 5
          (UiState.mk 2 "page two" (-1) "" none [])).store (generateKey "m" 2) = none) ∧
    (ocrResolve 100 "m" 1 "" 5 (UiState.mk 2 "page two" (-1) "" none []) =
      UiState.mk 2 "page two" (-1) "" none []) :=
  ⟨⟨by decide, by decide⟩,
    (cross_page_gating (UiState.mk 2 "page two" (-1) "" none []) 100 "m" 1 2 "c" "b" "你好" 5
      ⟨by decide, by decide⟩).1,
    (cross_page_gating (UiState.mk 2 "page two" (-1) "" none []) 100 "m" 1 2 "c" "b" "你好" 5
      ⟨by decide, by decide⟩).2.2.1,
    (cross_page_gating (UiState.mk 2 "page two" (-1) "" none []) 100 "m" 1 2 "c" "b" "你好" 5
      ⟨by decide, by decide⟩).2.2.2.2⟩

/-- Claim C3: the source `translateStream` can never satisfy the streaming
contract because it unconditionally aborts its own request and returns
`''` before the read loop (lines 153-158): every call yields the empty
string and delivers zero chunks — whatever the provider would have
streamed — while the read loop as written (dead code) would have delivered
the raw deltas (think-markup INCLUDED, only the final value is stripped)
and returned the stripped text. -/
theorem translate_stream_never_streams :
    (∀ events : List StreamEvent, translateStreamActual events = ("", [])) ∧
    translateStreamActual [StreamEvent.content "<think>x</think>Hi", StreamEvent.done] =
      ("", []) ∧
    translateStreamIntended [StreamEvent.content "<think>x</think>Hi", StreamEvent.done] =
      ("Hi", ["<think>x</think>Hi"]) :=
  ⟨fun _ => rfl, rfl, by decide⟩

/-- Claim C5: a cancelled translation IS surfaced to the user as an error.
`translateStream` rejects a superseded call with `Error('Request
canceled')`; the catch in `translateText` guards with `err !== 'Request
cancelled'` — comparing an Error OBJECT against a (differently spelled)
STRING, which never matches — so `setError('Request canceled')` runs,
contradicting the code's own comment that cancellations must not show an
error. -/
theorem cancelled_translation_sets_error :
    ∀ s : UiState,
      translateStreamCancelError ≠ JsValue.jsStr "Request cancelled" ∧
      (translateCatch translateStreamCancelError s).errorMsg = some "Request canceled" := by
  intro s
  refine ⟨by decide, ?_⟩
  rw [translateCatch, if_pos (by decide)]
  show some (errMessageOrDefault "翻译失败" translateStreamCancelError) = some "Request canceled"
  decide

/-- Claim C8 counterexample: narration finishes naturally on the LAST page
(page 3 of 3) while auto-read is active: the registered callback does
nothing — no page turn, and in particular the auto-read flag is left set,
so the supervisor is NOT stopped (the claim says it exits the AutoReading
state). -/
theorem autoread_last_page_counterexample :
    autoTurnPageCallbackRun (AutoReadState.mk true 3 3 true) =
      (none, AutoReadState.mk true 3 3 true) ∧
    (AutoReadState.mk true 3 3 true).isCurrentlyAutoSpeaking = true := by decide

/-- Claim C8 (amended): when narration finishes while auto-read is active
(turn-page callback registered, valid 1-based page within bounds): if the
current page is not the last, a next-page advance is triggered, restarting
the pipeline for the new page; if it IS the last page, nothing is done —
no page turn, no state change — and the auto-read flag remains set (the
supervisor is not explicitly stopped; it merely stops advancing). -/
theorem autoread_finished_behavior :
    ∀ s : AutoReadState,
      s.isCurrentlyAutoSpeaking = true → s.hasTurnPage = true →
      1 ≤ s.pageNumber → s.pageNumber ≤ s.numPages →
      (s.pageNumber < s.numPages →
        autoTurnPageCallbackRun s = (some TurnDirection.next, s)) ∧
      (s.pageNumber = s.numPages → autoTurnPageCallbackRun s = (none, s)) := by
  intro s h₁ h₂ h₃ h₄
  have hcond : (s.isCurrentlyAutoSpeaking && (s.pageNumber != 0) &&
      (s.numPages != 0) && s.hasTurnPage) = true := by
    simp only [h₁, h₂, Bool.true_and, Bool.and_true, bne_iff_ne, ne_eq,
      Bool.and_eq_true, decide_eq_true_eq]
    omega
  constructor
  · intro hlt
    rw [autoTurnPageCallbackRun, if_pos hcond, if_pos hlt]
  · intro heq
    rw [autoTurnPageCallbackRun, if_pos hcond, if_neg (by omega)]

/-- Witness for the amended C8: page 2 of 3 advances; page 3 of 3 does not. -/
theorem autoread_finished_behavior_witness :
    ((AutoReadState.mk true 2 3 true).isCurrentlyAutoSpeaking = true ∧ (2 : Nat) < 3) ∧
    autoTurnPageCallbackRun (AutoReadState.mk true 2 3 true) =
      (some TurnDirection.next, AutoReadState.mk true 2 3 true) ∧
    autoTurnPageCallbackRun (AutoReadState.mk true 3 3 true) =
      (none, AutoReadState.mk true 3 3 true) :=
  ⟨⟨by decide, by decide⟩,
    (autoread_finished_behavior (AutoReadState.mk true 2 3 true)
      (by decide) (by decide) (by decide) (by decide)).1 (by decide),
    (autoread_finished_behavior (AutoReadState.mk true 3 3 true)
      (by decide) (by decide) (by decide) (by decide)).2 (by decide)⟩

/-- Claim C9: the tts-finished notification fires the registered callback
chain exactly once per naturally completed narration and never for a stale
process id: an event whose pid differs from the tracked one — including
after `stop()` cleared it or after a newer `speak()` replaced it — invokes
nothing; once fired, the tracking is cleared, so a duplicate event does not
fire again; and even with duplicated registered listeners the chain fires
exactly once per event. -/
theorem tts_finished_exactly_once :
    ∀ (s : TtsState) (pid pid2 : String) (n : Nat),
      (s.currentProcessId ≠ some pid → handleTtsFinished s pid = (s, false)) ∧
      (pid ≠ pid2 →
        handleTtsFinished (ttsSpeakStart pid2) pid = (ttsSpeakStart pid2, false)) ∧
      (s.isSpeaking = true → (ttsStop s true).currentProcessId = none ∧
        handleTtsFinished (ttsStop s true) pid = (ttsStop s true, false)) ∧
      ((handleTtsFinished (handleTtsFinished s pid).1 pid).2 = false) ∧
      (s.currentProcessId = some pid → 1 ≤ n → (dispatchTtsFinished n s pid).2 = 1) ∧
      (s.currentProcessId ≠ some pid → (dispatchTtsFinished n s pid).2 = 0) := by
  intro s pid pid2 n
  refine ⟨?_, ?_, ?_, ?_, ?_, ?_⟩
  · intro h
    rw [handleTtsFinished, if_neg h]
  · intro h
    rw [handleTtsFinished,
      if_neg (by simp only [ttsSpeakStart, Option.some.injEq]; exact fun hc => h hc.symm)]
  · intro h
    have hfalse : ¬ (s.isSpeaking = false) := by simp [h]
    cases hpid : s.currentProcessId with
    | some p =>
      have hstop : ttsStop s true = TtsState.mk false none := by
        simp [ttsStop, hfalse, hpid]
      rw [hstop]
      exact ⟨rfl, by simp [handleTtsFinished]⟩
    | none =>
      have hstop : ttsStop s true = s := by
        simp [ttsStop, hfalse, hpid]
      rw [hstop]
      exact ⟨hpid, by simp [handleTtsFinished, hpid]⟩
  · by_cases hc : s.currentProcessId = some pid
    · simp [handleTtsFinished, hc]
    · simp [handleTtsFinished, hc]
  · intro hc hn
    cases n with
    | zero => omega
    | succ k =>
      have hfire : handleTtsFinished s pid =
          ({ isSpeaking := false, currentProcessId := none }, true) := by
        rw [handleTtsFinished, if_pos hc]
      have hrest := dispatchTtsFinished_miss k
        { isSpeaking := false, currentProcessId := none } pid (by simp)
      simp [dispatchTtsFinished, hfire, hrest]
  · intro hc
    rw [dispatchTtsFinished_miss n s pid hc]

/-- Witness for C9: tracked pid "p1", a stale event "p0" fires nothing, a
triple-registered listener chain fires once for "p1". -/
theorem tts_finished_exactly_once_witness :
    ((TtsState.mk true (some "p1")).currentProcessId ≠ some "p0" ∧
      handleTtsFinished (TtsState.mk true (some "p1")) "p0" =
        (TtsState.mk true (some "p1"), false)) ∧
    ((TtsState.mk true (some "p1")).currentProcessId = some "p1" ∧
      (dispatchTtsFinished 3 (TtsState.mk true (some "p1")) "p1").2 = 1) ∧
    ((TtsState.mk true (some "p1")).isSpeaking = true ∧
      (ttsStop (TtsState.mk true (some "p1")) true).currentProcessId = none) :=
  ⟨⟨by decide, (tts_finished_exactly_once (TtsState.mk true (some "p1")) "p0" "x" 3).1
      (by decide)⟩,
    ⟨by decide, (tts_finished_exactly_once (TtsState.mk true (some "p1")) "p1" "x" 3).2.2.2.2.1
      (by decide) (by decide)⟩,
    ⟨by decide, ((tts_finished_exactly_once (TtsState.mk true (some "p1")) "p1" "x" 3).2.2.1
      (by decide)).1⟩⟩

end PdfOcr
